import Mathlib

/-!
Verification of the create-ts-dash scaffolding CLI.

Shallow embedding of the pure logic of the tool:
* package-manager detection and command formatting (src/package-manager.ts),
* the template/script/dependency registry (src/templates.ts),
* CLI argument parsing and project-name normalization (src/args.ts),
* the dependency-collection block of the orchestrator (src/index.ts, main).

JavaScript strings are modelled as Lean `String` (a list of Unicode
code points); JavaScript `Set<ToolingKey>` over the two-element key type is
modelled as a pair of membership flags; `Record<string, string>` built by
assignments with pairwise-distinct keys is modelled as an association list
in insertion order; `process.exit(1)` in `parseArgs` is modelled by
returning `none`.
-/

namespace CreateTsDash

/-- Embedding of type PackageManager = 'npm' | 'yarn' | 'pnpm' | 'bun'. -/
inductive PackageManager where
  | npm | yarn | pnpm | bun
deriving DecidableEq, Repr

/-- Embedding of type ServerKey = 'express' | 'fastify' | 'hono'. -/
inductive ServerKey where
  | express | fastify | hono
deriving DecidableEq, Repr

/-- Embedding of type ToolingKey = 'lint' | 'vitest'. -/
inductive ToolingKey where
  | lint | vitest
deriving DecidableEq, Repr

/-- Embedding of JavaScript Set<ToolingKey>: a membership flag per key. -/
structure ToolingSet where
  lint : Bool
  vitest : Bool
deriving DecidableEq, Repr

/-- Embedding of new Set() (the empty set). -/
def ToolingSet.empty : ToolingSet := ⟨false, false⟩

/-- Embedding of Set.prototype.add restricted to ToolingKey. -/
def ToolingSet.add (s : ToolingSet) (k : ToolingKey) : ToolingSet :=
  match k with
  | .lint => { s with lint := true }
  | .vitest => { s with vitest := true }

/-- Embedding of Set.prototype.has restricted to ToolingKey. -/
def ToolingSet.has (s : ToolingSet) (k : ToolingKey) : Bool :=
  match k with
  | .lint => s.lint
  | .vitest => s.vitest

/-- Embedding of String.prototype.startsWith: the code points of p are a
prefix of the code points of s. -/
def strStartsWith (s p : String) : Bool :=
  p.data.isPrefixOf s.data

/-- Embedding of Array.prototype.join(sep): the elements concatenated with
sep between consecutive elements. -/
def joinSep (sep : String) : List String → String
  | [] => ""
  | [d] => d
  | d :: e :: ds => d ++ sep ++ joinSep sep (e :: ds)

/-- Embedding of detectPackageManager (src/package-manager.ts). The
npm_config_user_agent environment variable is passed explicitly, none
standing for an unset variable. The source guards the prefix tests with a
JavaScript truthiness check on the variable; the empty string is falsy
there, but it also starts with none of the three prefixes, so folding the
truthiness check into the prefix tests is behaviour-preserving. -/
def detectPackageManager (userAgent : Option String) : PackageManager :=
  match userAgent with
  | some ua =>
    if strStartsWith ua "yarn" then .yarn
    else if strStartsWith ua "pnpm" then .pnpm
    else if strStartsWith ua "bun" then .bun
    else .npm
  | none => .npm

/-- Embedding of getInitCommand (src/package-manager.ts). -/
def getInitCommand : PackageManager → String
  | .yarn => "yarn init -y"
  | .pnpm => "pnpm init"
  | .bun => "bun init -y"
  | .npm => "npm init -y"

/-- Embedding of getAddCommand (src/package-manager.ts). -/
def getAddCommand (pm : PackageManager) (deps : List String) : String :=
  let depsStr := joinSep " " deps
  match pm with
  | .yarn => "yarn add " ++ depsStr
  | .pnpm => "pnpm add " ++ depsStr
  | .bun => "bun add " ++ depsStr
  | .npm => "npm install " ++ depsStr

/-- Spec-side description of space-joining: the dependency names in input
order with a single space between consecutive names. -/
def spaceJoined : List String → String
  | [] => ""
  | [d] => d
  | d :: e :: ds => d ++ " " ++ spaceJoined (e :: ds)

/-- Embedding of interface ServerOption (src/types.ts). -/
structure ServerOption where
  label : String
  value : ServerKey
  description : String
  dependencies : List String
  template : String
deriving DecidableEq, Repr

/-- Embedding of interface ToolingOption (src/types.ts). -/
structure ToolingOption where
  label : String
  value : ToolingKey
  description : String
  dependencies : List String
deriving DecidableEq, Repr

/-- Embedding of the servers registry (src/templates.ts). Literal braces of
the template texts are written with hex escapes; the strings are otherwise
byte-for-byte the texts of the source. -/
def servers : List ServerOption :=
  [ { label := "Express"
      value := .express
      description := "Fast, unopinionated, minimalist web framework"
      dependencies := ["express", "@types/express"]
      template := "import express from 'express';\n\nconst app = express();\nconst port = 3000;\n\napp.get('/', (req, res) => \x7b\n  res.send('Hello, world!');\n\x7d);\n\napp.listen(port, () => \x7b\n  console.log(`Server running at http://localhost:$\x7bport\x7d`);\n\x7d);\n" },
    { label := "Fastify"
      value := .fastify
      description := "Fast and low overhead web framework"
      dependencies := ["fastify"]
      template := "import Fastify from 'fastify';\n\nconst fastify = Fastify(\x7b logger: true \x7d);\n\nfastify.get('/', async () => \x7b\n  return \x7b hello: 'world' \x7d;\n\x7d);\n\nconst start = async () => \x7b\n  try \x7b\n    await fastify.listen(\x7b port: 3000 \x7d);\n  \x7d catch (err) \x7b\n    fastify.log.error(err);\n    process.exit(1);\n  \x7d\n\x7d;\n\nstart();\n" },
    { label := "Hono"
      value := .hono
      description := "Lightweight, ultrafast web framework"
      dependencies := ["hono", "@hono/node-server"]
      template := "import \x7b Hono \x7d from 'hono';\nimport \x7b serve \x7d from '@hono/node-server';\n\nconst app = new Hono();\n\napp.get('/', (c) => \x7b\n  return c.text('Hello, world!');\n\x7d);\n\nserve(\x7b fetch: app.fetch, port: 3000 \x7d, (info) => \x7b\n  console.log(`Server running at http://localhost:$\x7binfo.port\x7d`);\n\x7d);\n" } ]

/-- Embedding of the tooling registry (src/templates.ts). -/
def tooling : List ToolingOption :=
  [ { label := "ESLint + Prettier"
      value := .lint
      description := "Add linting and formatting"
      dependencies := ["eslint", "prettier", "@eslint/js", "typescript-eslint",
        "eslint-config-prettier", "eslint-plugin-prettier"] },
    { label := "Vitest"
      value := .vitest
      description := "Add Vitest for testing"
      dependencies := ["vitest"] } ]

/-- Embedding of defaultTemplate (src/templates.ts). -/
def defaultTemplate : String := "console.log('Hello, world!');\n"

/-- Embedding of getIndexTemplate (src/templates.ts): when a server key is
given, look it up in the registry and return its template; otherwise (or on
a failed lookup) return the default template. -/
def getIndexTemplate (server : Option ServerKey) : String :=
  match server with
  | some key =>
    match servers.find? (fun s => s.value == key) with
    | some serverConfig => serverConfig.template
    | none => defaultTemplate
  | none => defaultTemplate

/-- Embedding of getScripts (src/templates.ts). The JavaScript object is
built by assigning pairwise-distinct keys in a fixed order, so it is
modelled as an association list in that insertion order. -/
def getScripts (server : Option ServerKey) (selectedTooling : ToolingSet) :
    List (String × String) :=
  [("start", "tsx watch ./src/index.ts"), ("build", "rimraf ./dist && tsc")]
  ++ (if server.isSome then [("dev", "tsx watch ./src/index.ts")] else [])
  ++ (if selectedTooling.has .lint then
        [("lint", "eslint src/"), ("lint:fix", "eslint src/ --fix"),
         ("format", "prettier --write src/")]
      else [])
  ++ (if selectedTooling.has .vitest then
        [("test", "vitest"), ("test:run", "vitest run")]
      else [])

/-- Embedding of the base dependency list of main (src/index.ts). -/
def baseDeps : List String := ["tsx", "typescript", "@types/node", "rimraf"]

/-- Embedding of the dependency-collection block of main (src/index.ts):
start from the base list, push the selected server's registry dependencies
if a server is selected and found, then walk the tooling registry in order
and push the dependencies of each selected option. -/
def collectDeps (selectedServer : Option ServerKey)
    (selectedTooling : ToolingSet) : List String :=
  let deps := baseDeps
  let deps := deps ++
    (match selectedServer with
     | some key =>
       match servers.find? (fun s => s.value == key) with
       | some serverConfig => serverConfig.dependencies
       | none => []
     | none => [])
  tooling.foldl
    (fun acc tool =>
      if selectedTooling.has tool.value then acc ++ tool.dependencies else acc)
    deps

/-- Embedding of interface CliArgs (src/types.ts). -/
structure CliArgs where
  projectName : Option String
  server : Option ServerKey
  tooling : ToolingSet
  yes : Bool
deriving DecidableEq, Repr

/-- Embedding of the body of the argument loop of parseArgs (src/args.ts):
the state is the partial CliArgs record together with the serverFlags
accumulator. -/
def parseStep (st : CliArgs × List ServerKey) (arg : String) :
    CliArgs × List ServerKey :=
  if arg = "--express" ∨ arg = "-e" then (st.1, st.2 ++ [ServerKey.express])
  else if arg = "--fastify" ∨ arg = "-f" then (st.1, st.2 ++ [ServerKey.fastify])
  else if arg = "--hono" ∨ arg = "-h" then (st.1, st.2 ++ [ServerKey.hono])
  else if arg = "--lint" ∨ arg = "-l" then
    ({ st.1 with tooling := st.1.tooling.add .lint }, st.2)
  else if arg = "--vitest" ∨ arg = "-t" then
    ({ st.1 with tooling := st.1.tooling.add .vitest }, st.2)
  else if arg = "--yes" ∨ arg = "-y" then ({ st.1 with yes := true }, st.2)
  else if ¬ strStartsWith arg "-" then
    ({ st.1 with projectName := some arg }, st.2)
  else st

/-- Embedding of parseArgs (src/args.ts). The source exits the process
with an error when more than one server flag was collected; that exit is
modelled as none. -/
def parseArgs (args : List String) : Option CliArgs :=
  let st := args.foldl parseStep
    ({ projectName := none, server := none, tooling := .empty, yes := false }, [])
  if st.2.length > 1 then none
  else some
    (match st.2 with
     | [f] => { st.1 with server := some f }
     | _ => st.1)

/-- Spec-side table of the server flags recognized by parseArgs and the
key each one selects. -/
def serverFlagKey (arg : String) : Option ServerKey :=
  if arg = "--express" ∨ arg = "-e" then some .express
  else if arg = "--fastify" ∨ arg = "-f" then some .fastify
  else if arg = "--hono" ∨ arg = "-h" then some .hono
  else none

/-- All flag strings recognized by parseArgs. -/
def recognizedFlags : List String :=
  ["--express", "-e", "--fastify", "-f", "--hono", "-h",
   "--lint", "-l", "--vitest", "-t", "--yes", "-y"]

/-- Code points matched by the JavaScript regular-expression class \s,
which is also the set of code points String.prototype.trim removes:
tab, line feed, vertical tab, form feed, carriage return, space, no-break
space, ogham space mark, the en-quad..hair-space range, line separator,
paragraph separator, narrow no-break space, medium mathematical space,
ideographic space, and the byte-order mark. -/
def isJsWhitespace (c : Char) : Bool :=
  decide (c.toNat = 0x9 ∨ c.toNat = 0xA ∨ c.toNat = 0xB ∨ c.toNat = 0xC ∨
    c.toNat = 0xD ∨ c.toNat = 0x20 ∨ c.toNat = 0xA0 ∨ c.toNat = 0x1680 ∨
    (0x2000 ≤ c.toNat ∧ c.toNat ≤ 0x200A) ∨ c.toNat = 0x2028 ∨
    c.toNat = 0x2029 ∨ c.toNat = 0x202F ∨ c.toNat = 0x205F ∨
    c.toNat = 0x3000 ∨ c.toNat = 0xFEFF)

/-- Embedding of String.prototype.trim on code-point lists: drop leading
and trailing whitespace. -/
def jsTrim (l : List Char) : List Char :=
  ((l.dropWhile isJsWhitespace).reverse.dropWhile isJsWhitespace).reverse

/-- Model of String.prototype.toLowerCase at a single code point,
restricted to the Basic Latin letters A-Z (mapped to a-z; every other code
point is kept). The full Unicode lowercase mapping also keeps every code
point of the class [a-z0-9-~] fixed, which is the only property of
lowercasing the development relies on. -/
def jsToLowerChar (c : Char) : Char :=
  if 0x41 ≤ c.toNat ∧ c.toNat ≤ 0x5A then Char.ofNat (c.toNat + 0x20) else c

/-- Code points matched by the JavaScript regular-expression class
[a-z0-9-~]: lowercase Basic Latin letters, decimal digits, hyphen-minus
and tilde (the hyphen between 9 and ~ is literal). -/
def isPackageNameChar (c : Char) : Bool :=
  decide ((0x61 ≤ c.toNat ∧ c.toNat ≤ 0x7A) ∨ (0x30 ≤ c.toNat ∧ c.toNat ≤ 0x39) ∨
    c.toNat = 0x2D ∨ c.toNat = 0x7E)

/-- Embedding of a global replace of X+ by a single hyphen, for a class X
given by p: every maximal run of code points satisfying p becomes one
hyphen. The flag records whether the previous code point was inside a
run. -/
def collapseRunsAux (p : Char → Bool) : Bool → List Char → List Char
  | _, [] => []
  | inRun, c :: cs =>
    if p c then
      if inRun then collapseRunsAux p true cs
      else '-' :: collapseRunsAux p true cs
    else c :: collapseRunsAux p false cs

/-- Global replace of each maximal run of code points satisfying p by one
hyphen, as .replace(/X+/g, '-') does for a class X. -/
def collapseRuns (p : Char → Bool) (l : List Char) : List Char :=
  collapseRunsAux p false l

/-- Embedding of .replace(/^[._]/, ''): drop one leading dot or
underscore, if present. -/
def dropOneLeadingDotUnderscore : List Char → List Char
  | [] => []
  | c :: cs => if c = '.' ∨ c = '_' then cs else c :: cs

/-- Embedding of toValidPackageName (src/args.ts) on code-point lists:
trim, lowercase, collapse whitespace runs to hyphens, drop one leading dot
or underscore, collapse runs of disallowed code points to hyphens. -/
def toValidPackageNameList (l : List Char) : List Char :=
  collapseRuns (fun c => ! isPackageNameChar c)
    (dropOneLeadingDotUnderscore
      (collapseRuns isJsWhitespace
        (List.map jsToLowerChar (jsTrim l))))

/-- Embedding of toValidPackageName (src/args.ts). -/
def toValidPackageName (s : String) : String :=
  ⟨toValidPackageNameList s.data⟩

theorem joinSep_space_eq_spaceJoined (ds : List String) :
    joinSep " " ds = spaceJoined ds := by
  match ds with
  | [] => rfl
  | [d] => rfl
  | d :: e :: ds =>
    show d ++ " " ++ joinSep " " (e :: ds) = _
    rw [joinSep_space_eq_spaceJoined (e :: ds)]
    rfl

theorem isPrefixOf_head {c : Char} {l m : List Char}
    (h : (c :: l).isPrefixOf m = true) : ∃ ms, m = c :: ms := by
  match m with
  | [] => simp [List.isPrefixOf] at h
  | b :: bs =>
    simp [List.isPrefixOf] at h
    exact ⟨bs, by rw [h.1]⟩

theorem strStartsWith_not_both {u p q : String} {c d : Char} {l m : List Char}
    (hp : p.data = c :: l) (hq : q.data = d :: m) (hcd : c ≠ d)
    (h1 : strStartsWith u p = true) (h2 : strStartsWith u q = true) : False := by
  unfold strStartsWith at h1 h2
  rw [hp] at h1
  rw [hq] at h2
  obtain ⟨ms, hms⟩ := isPrefixOf_head h1
  obtain ⟨ns, hns⟩ := isPrefixOf_head h2
  rw [hms] at hns
  exact hcd (List.cons.injEq .. ▸ hns).1

/-- C1: for each of the four package-manager identifiers, getInitCommand
returns exactly the fixed per-backend init command string, and for every
list of dependency names getAddCommand returns exactly the fixed
per-backend add command with the dependency names space-joined in input
order. -/
theorem initAndAddCommands_fixed_table :
    getInitCommand .npm = "npm init -y" ∧
    getInitCommand .yarn = "yarn init -y" ∧
    getInitCommand .pnpm = "pnpm init" ∧
    getInitCommand .bun = "bun init -y" ∧
    ∀ deps : List String,
      getAddCommand .npm deps = "npm install " ++ spaceJoined deps ∧
      getAddCommand .yarn deps = "yarn add " ++ spaceJoined deps ∧
      getAddCommand .pnpm deps = "pnpm add " ++ spaceJoined deps ∧
      getAddCommand .bun deps = "bun add " ++ spaceJoined deps := by
  refine ⟨rfl, rfl, rfl, rfl, fun deps => ?_⟩
  refine ⟨?_, ?_, ?_, ?_⟩ <;>
    simp only [getAddCommand, joinSep_space_eq_spaceJoined]

/-- C2: getIndexTemplate applied to no server selection returns exactly the
default template, and for each of the three server keys it returns,
byte-for-byte, that server's fixed template text from the registry. -/
theorem getIndexTemplate_fixed_texts :
    getIndexTemplate none = "console.log('Hello, world!');\n" ∧
    getIndexTemplate (some .express) = "import express from 'express';\n\nconst app = express();\nconst port = 3000;\n\napp.get('/', (req, res) => \x7b\n  res.send('Hello, world!');\n\x7d);\n\napp.listen(port, () => \x7b\n  console.log(`Server running at http://localhost:$\x7bport\x7d`);\n\x7d);\n" ∧
    getIndexTemplate (some .fastify) = "import Fastify from 'fastify';\n\nconst fastify = Fastify(\x7b logger: true \x7d);\n\nfastify.get('/', async () => \x7b\n  return \x7b hello: 'world' \x7d;\n\x7d);\n\nconst start = async () => \x7b\n  try \x7b\n    await fastify.listen(\x7b port: 3000 \x7d);\n  \x7d catch (err) \x7b\n    fastify.log.error(err);\n    process.exit(1);\n  \x7d\n\x7d;\n\nstart();\n" ∧
    getIndexTemplate (some .hono) = "import \x7b Hono \x7d from 'hono';\nimport \x7b serve \x7d from '@hono/node-server';\n\nconst app = new Hono();\n\napp.get('/', (c) => \x7b\n  return c.text('Hello, world!');\n\x7d);\n\nserve(\x7b fetch: app.fetch, port: 3000 \x7d, (info) => \x7b\n  console.log(`Server running at http://localhost:$\x7binfo.port\x7d`);\n\x7d);\n" ∧
    ∀ key : ServerKey, ∃ opt ∈ servers, opt.value = key ∧
      getIndexTemplate (some key) = opt.template := by
  refine ⟨rfl, rfl, rfl, rfl, fun key => ?_⟩
  cases key
  · exact ⟨servers.get ⟨0, by simp [servers]⟩, List.get_mem .., rfl, rfl⟩
  · exact ⟨servers.get ⟨1, by simp [servers]⟩, List.get_mem .., rfl, rfl⟩
  · exact ⟨servers.get ⟨2, by simp [servers]⟩, List.get_mem .., rfl, rfl⟩

/-- C3: for every server choice and every set of tooling choices, the key
set of getScripts is exactly \x7bstart, build\x7d, united with \x7bdev\x7d
iff a server is selected, with \x7blint, lint:fix, format\x7d iff lint
tooling is selected, and with \x7btest, test:run\x7d iff vitest tooling is
selected; the keys are pairwise distinct, so the composition is additive
with no collisions. -/
theorem getScripts_key_set (server : Option ServerKey) (t : ToolingSet) :
    ((getScripts server t).map Prod.fst).Nodup ∧
    ∀ k : String, k ∈ (getScripts server t).map Prod.fst ↔
      (k = "start" ∨ k = "build" ∨
       (server.isSome = true ∧ k = "dev") ∨
       (t.has .lint = true ∧ (k = "lint" ∨ k = "lint:fix" ∨ k = "format")) ∨
       (t.has .vitest = true ∧ (k = "test" ∨ k = "test:run"))) := by
  obtain ⟨l, v⟩ := t
  rcases server with _ | key
  all_goals try cases key
  all_goals cases l <;> cases v <;>
    refine ⟨by decide, fun k => ?_⟩ <;>
    (simp [getScripts, ToolingSet.has]; try tauto)

/-- C6: for every configuration, the flat dependency list passed to the
install command is the base tooling dependencies, then the selected
server's dependencies (if any), then the dependencies of each selected
tooling option in registry order (lint before vitest). -/
theorem collectDeps_concatenation_order (server : Option ServerKey) (t : ToolingSet) :
    collectDeps server t =
      baseDeps
      ++ (match server with
          | some .express => ["express", "@types/express"]
          | some .fastify => ["fastify"]
          | some .hono => ["hono", "@hono/node-server"]
          | none => [])
      ++ (if t.has .lint then
            ["eslint", "prettier", "@eslint/js", "typescript-eslint",
             "eslint-config-prettier", "eslint-plugin-prettier"]
          else [])
      ++ (if t.has .vitest then ["vitest"] else []) := by
  obtain ⟨l, v⟩ := t
  rcases server with _ | key
  · cases l <;> cases v <;> rfl
  · cases key <;> cases l <;> cases v <;> rfl

/-- C10: whenever a server is selected, getScripts maps "dev" and "start"
to the identical command string, for every server and tooling choice. -/
theorem getScripts_dev_eq_start (key : ServerKey) (t : ToolingSet) :
    (getScripts (some key) t).lookup "dev" = some "tsx watch ./src/index.ts" ∧
    (getScripts (some key) t).lookup "start" = some "tsx watch ./src/index.ts" := by
  obtain ⟨l, v⟩ := t
  cases l <;> cases v <;> exact ⟨rfl, rfl⟩

/-- C7: detectPackageManager always returns one of the four known
backends; as a function of the npm_config_user_agent string it returns
yarn, pnpm or bun exactly when the string is set and starts with that
backend's name, and npm in every other case, including when the variable
is unset. -/
theorem detectPackageManager_cases (ua : Option String) :
    (detectPackageManager ua = .yarn ↔
      ∃ u, ua = some u ∧ strStartsWith u "yarn" = true) ∧
    (detectPackageManager ua = .pnpm ↔
      ∃ u, ua = some u ∧ strStartsWith u "pnpm" = true) ∧
    (detectPackageManager ua = .bun ↔
      ∃ u, ua = some u ∧ strStartsWith u "bun" = true) ∧
    (detectPackageManager ua = .npm ↔ ∀ u, ua = some u →
      strStartsWith u "yarn" = false ∧ strStartsWith u "pnpm" = false ∧
      strStartsWith u "bun" = false) := by
  rcases ua with _ | u
  · simp [detectPackageManager]
  · by_cases hy : strStartsWith u "yarn" = true
    · have hp : ¬ strStartsWith u "pnpm" = true := fun hp =>
        strStartsWith_not_both rfl rfl (by decide) hy hp
      have hb : ¬ strStartsWith u "bun" = true := fun hb =>
        strStartsWith_not_both rfl rfl (by decide) hy hb
      simp [detectPackageManager, hy, hp, hb]
    · by_cases hp : strStartsWith u "pnpm" = true
      · have hb : ¬ strStartsWith u "bun" = true := fun hb =>
          strStartsWith_not_both rfl rfl (by decide) hp hb
        simp [detectPackageManager, hy, hp, hb]
      · by_cases hb : strStartsWith u "bun" = true
        · simp [detectPackageManager, hy, hp, hb]
        · simp [detectPackageManager, hy, hp, hb]

theorem parseStep_serverFlags (st : CliArgs × List ServerKey) (a : String) :
    (parseStep st a).2 = st.2 ++ (serverFlagKey a).toList ∧
    (parseStep st a).1.server = st.1.server := by
  unfold parseStep serverFlagKey
  split_ifs <;> simp

theorem foldl_parseStep_serverFlags (args : List String)
    (st : CliArgs × List ServerKey) :
    (args.foldl parseStep st).2 = st.2 ++ args.filterMap serverFlagKey ∧
    (args.foldl parseStep st).1.server = st.1.server := by
  induction args generalizing st with
  | nil => simp
  | cons a as ih =>
    have h := parseStep_serverFlags st a
    have h2 := ih (parseStep st a)
    refine ⟨?_, by rw [List.foldl_cons, h2.2, h.2]⟩
    rw [List.foldl_cons, h2.1, h.1, List.filterMap_cons]
    cases hk : serverFlagKey a <;> simp [Option.toList]

/-- C5: if the argument list contains more than one server flag (counting
repetitions, among --express, -e, --fastify, -f, --hono, -h), parseArgs
reports an error and exits (modelled as none); otherwise it returns a
configuration whose server field is the single server flag given, or is
absent when none was given. -/
theorem parseArgs_at_most_one_server (args : List String) :
    ((args.filterMap serverFlagKey).length > 1 → parseArgs args = none) ∧
    ((args.filterMap serverFlagKey).length ≤ 1 →
      ∃ cfg, parseArgs args = some cfg ∧
        cfg.server = (args.filterMap serverFlagKey).head?) := by
  obtain ⟨h1, h2⟩ := foldl_parseStep_serverFlags args
    ({ projectName := none, server := none, tooling := .empty, yes := false }, [])
  rw [List.nil_append] at h1
  constructor
  · intro hlen
    simp only [parseArgs]
    rw [if_pos (h1 ▸ hlen)]
  · intro hlen
    simp only [parseArgs]
    rw [if_neg (by rw [h1]; omega)]
    refine ⟨_, rfl, ?_⟩
    rcases hfl : args.filterMap serverFlagKey with _ | ⟨f, fs⟩
    · rw [hfl] at h1
      rw [h1]
      simpa using h2
    · rw [hfl] at h1 hlen
      have hfs : fs = [] := by
        simp only [List.length_cons] at hlen
        exact List.length_eq_zero.mp (by omega)
      subst hfs
      rw [h1]
      rfl

theorem parseStep_projectName (st : CliArgs × List ServerKey) (a : String) :
    (parseStep st a).1.projectName =
      if strStartsWith a "-" = true then st.1.projectName else some a := by
  by_cases hs : strStartsWith a "-" = true
  · rw [if_pos hs]
    unfold parseStep
    split_ifs <;> rfl
  · rw [if_neg hs]
    unfold parseStep
    split_ifs with c1 c2 c3 c4 c5 c6
    · exact absurd (show strStartsWith a "-" = true by
        rcases c1 with h | h <;> (subst h; decide)) hs
    · exact absurd (show strStartsWith a "-" = true by
        rcases c2 with h | h <;> (subst h; decide)) hs
    · exact absurd (show strStartsWith a "-" = true by
        rcases c3 with h | h <;> (subst h; decide)) hs
    · exact absurd (show strStartsWith a "-" = true by
        rcases c4 with h | h <;> (subst h; decide)) hs
    · exact absurd (show strStartsWith a "-" = true by
        rcases c5 with h | h <;> (subst h; decide)) hs
    · exact absurd (show strStartsWith a "-" = true by
        rcases c6 with h | h <;> (subst h; decide)) hs
    · rfl

theorem getLast?_cons_or {α : Type} : ∀ (l : List α) (a : α),
    (a :: l).getLast? = l.getLast?.or (some a)
  | [], _ => rfl
  | b :: bs, a => by
    rw [List.getLast?_cons_cons, getLast?_cons_or bs b]
    cases bs.getLast? <;> rfl

theorem foldl_parseStep_projectName (args : List String)
    (st : CliArgs × List ServerKey) :
    (args.foldl parseStep st).1.projectName =
      ((args.filter fun a => ! strStartsWith a "-").getLast?).or
        st.1.projectName := by
  induction args generalizing st with
  | nil => simp
  | cons a as ih =>
    rw [List.foldl_cons, ih (parseStep st a), parseStep_projectName,
      List.filter_cons]
    by_cases hs : strStartsWith a "-" = true
    · simp [hs]
    · rw [if_neg hs, if_pos (by simp [hs]), getLast?_cons_or]
      rcases (as.filter fun a => ! strStartsWith a "-").getLast? <;> rfl

theorem parseStep_unrecognized (st : CliArgs × List ServerKey) (a : String)
    (hdash : strStartsWith a "-" = true) (hmem : a ∉ recognizedFlags) :
    parseStep st a = st := by
  simp only [recognizedFlags, List.mem_cons, List.not_mem_nil, or_false,
    not_or] at hmem
  obtain ⟨m1, m2, m3, m4, m5, m6, m7, m8, m9, m10, m11, m12⟩ := hmem
  unfold parseStep
  rw [if_neg (not_or.mpr ⟨m1, m2⟩), if_neg (not_or.mpr ⟨m3, m4⟩),
    if_neg (not_or.mpr ⟨m5, m6⟩), if_neg (not_or.mpr ⟨m7, m8⟩),
    if_neg (not_or.mpr ⟨m9, m10⟩), if_neg (not_or.mpr ⟨m11, m12⟩),
    if_neg (not_not_intro hdash)]

/-- C9: when the argument list contains several positional (non-flag)
arguments, the last one becomes the project name, each later positional
argument overwriting the earlier; and every unrecognized argument
beginning with a hyphen is silently ignored rather than reported as an
error. -/
theorem parseArgs_last_positional_unknown_ignored :
    (∀ (args : List String) (cfg : CliArgs), parseArgs args = some cfg →
      cfg.projectName =
        (args.filter fun a => ! strStartsWith a "-").getLast?) ∧
    (∀ (l1 l2 : List String) (a : String), strStartsWith a "-" = true →
      a ∉ recognizedFlags → parseArgs (l1 ++ a :: l2) = parseArgs (l1 ++ l2)) := by
  constructor
  · intro args cfg hcfg
    have hpn := foldl_parseStep_projectName args
      ({ projectName := none, server := none, tooling := .empty, yes := false }, [])
    simp only [parseArgs] at hcfg
    split at hcfg
    · exact absurd hcfg (by simp)
    · have hc := Option.some.injEq .. ▸ hcfg
      have : cfg.projectName =
          (args.foldl parseStep
            ({ projectName := none, server := none, tooling := .empty,
               yes := false }, [])).1.projectName := by
        rw [← hc]
        rcases (args.foldl parseStep _).2 with _ | ⟨f, fs⟩
        · rfl
        · rcases fs with _ | _ <;> rfl
      rw [this, hpn, Option.or_none]
  · intro l1 l2 a hdash hmem
    simp only [parseArgs, List.foldl_append, List.foldl_cons,
      parseStep_unrecognized _ a hdash hmem]

theorem mem_collapseRunsAux {p : Char → Bool} (l : List Char) :
    ∀ (b : Bool) (c : Char), c ∈ collapseRunsAux p b l →
      c = '-' ∨ (p c = false ∧ c ∈ l) := by
  induction l with
  | nil => intro b c h; simp [collapseRunsAux] at h
  | cons d ds ih =>
    intro b c h
    unfold collapseRunsAux at h
    by_cases hp : p d = true
    · rw [if_pos hp] at h
      have hmem : c ∈ collapseRunsAux p true ds ∨ c = '-' := by
        cases b
        · simp only [Bool.false_eq_true, if_false] at h
          rcases List.mem_cons.mp h with h' | h'
          · exact Or.inr h'
          · exact Or.inl h'
        · simp only [if_true] at h
          exact Or.inl h
      rcases hmem with h' | h'
      · rcases ih true c h' with h'' | ⟨h1, h2⟩
        · exact Or.inl h''
        · exact Or.inr ⟨h1, List.mem_cons_of_mem _ h2⟩
      · exact Or.inl h'
    · rw [if_neg hp] at h
      rcases List.mem_cons.mp h with h' | h'
      · subst h'
        refine Or.inr ⟨?_, List.mem_cons_self _ _⟩
        simpa using hp
      · rcases ih false c h' with h'' | ⟨h1, h2⟩
        · exact Or.inl h''
        · exact Or.inr ⟨h1, List.mem_cons_of_mem _ h2⟩

theorem toValidPackageNameList_chars (l : List Char) :
    ∀ c ∈ toValidPackageNameList l, isPackageNameChar c = true := by
  intro c hc
  unfold toValidPackageNameList collapseRuns at hc
  rcases mem_collapseRunsAux _ false c hc with h | ⟨h1, _⟩
  · subst h; decide
  · simpa using h1

theorem allowed_not_whitespace {c : Char} (h : isPackageNameChar c = true) :
    isJsWhitespace c = false := by
  simp only [isPackageNameChar, decide_eq_true_eq] at h
  simp only [isJsWhitespace, decide_eq_false_iff_not]
  omega

theorem allowed_toLower_fixed {c : Char} (h : isPackageNameChar c = true) :
    jsToLowerChar c = c := by
  simp only [isPackageNameChar, decide_eq_true_eq] at h
  unfold jsToLowerChar
  rw [if_neg (by omega)]

theorem allowed_not_dot_underscore {c : Char} (h : isPackageNameChar c = true) :
    ¬(c = '.' ∨ c = '_') := by
  rintro (rfl | rfl) <;> revert h <;> decide

theorem dropWhile_eq_self_of_none {q : Char → Bool} {l : List Char}
    (h : ∀ c ∈ l, q c = false) : l.dropWhile q = l := by
  cases l with
  | nil => rfl
  | cons a as =>
    rw [List.dropWhile_cons, if_neg (by simp [h a (List.mem_cons_self a as)])]

theorem jsTrim_eq_self {l : List Char}
    (h : ∀ c ∈ l, isJsWhitespace c = false) : jsTrim l = l := by
  unfold jsTrim
  rw [dropWhile_eq_self_of_none h,
    dropWhile_eq_self_of_none (fun c hc => h c (List.mem_reverse.mp hc)),
    List.reverse_reverse]

theorem collapseRunsAux_eq_self {p : Char → Bool} {l : List Char}
    (h : ∀ c ∈ l, p c = false) : collapseRunsAux p false l = l := by
  induction l with
  | nil => rfl
  | cons a as ih =>
    unfold collapseRunsAux
    rw [if_neg (by simp [h a (List.mem_cons_self a as)]),
      ih (fun c hc => h c (List.mem_cons_of_mem a hc))]

theorem dropOneLeadingDotUnderscore_eq_self {l : List Char}
    (h : ∀ c ∈ l, isPackageNameChar c = true) :
    dropOneLeadingDotUnderscore l = l := by
  cases l with
  | nil => rfl
  | cons a as =>
    show (if a = '.' ∨ a = '_' then as else a :: as) = a :: as
    rw [if_neg (allowed_not_dot_underscore (h a (List.mem_cons_self a as)))]

theorem toValidPackageNameList_fixed {l : List Char}
    (h : ∀ c ∈ l, isPackageNameChar c = true) :
    toValidPackageNameList l = l := by
  have hlow : List.map jsToLowerChar l = l := by
    rw [List.map_congr_left (fun c hc => allowed_toLower_fixed (h c hc))]
    exact List.map_id l
  unfold toValidPackageNameList collapseRuns
  rw [jsTrim_eq_self (fun c hc => allowed_not_whitespace (h c hc)), hlow,
    collapseRunsAux_eq_self (fun c hc => allowed_not_whitespace (h c hc)),
    dropOneLeadingDotUnderscore_eq_self h,
    collapseRunsAux_eq_self (fun c hc => by simp [h c hc])]

/-- C4: project-name normalization is idempotent: for every string,
applying toValidPackageName twice gives the same result as applying it
once (so an already-normalized name is returned unchanged); mixed case,
whitespace and disallowed characters are deterministically mapped to
lowercase-hyphenated form, as on the two sample inputs. -/
theorem toValidPackageName_idempotent :
    (∀ s : String,
      toValidPackageName (toValidPackageName s) = toValidPackageName s) ∧
    toValidPackageName "  My-Project  " = "my-project" ∧
    toValidPackageName "my cool project" = "my-cool-project" := by
  refine ⟨fun s => ?_, by decide, by decide⟩
  show (⟨toValidPackageNameList (toValidPackageNameList s.data)⟩ : String) =
    ⟨toValidPackageNameList s.data⟩
  rw [toValidPackageNameList_fixed (toValidPackageNameList_chars s.data)]

/-- C8: toValidPackageName does not guarantee an npm-valid result: every
input whose trimmed form is empty is mapped to the empty string, and only
one leading dot or underscore is stripped, so the inputs "..app" and
"__app" normalize to "-app", which begins with a hyphen. -/
theorem toValidPackageName_weak_outputs :
    (∀ s : String, jsTrim s.data = [] → toValidPackageName s = "") ∧
    toValidPackageName "..app" = "-app" ∧
    toValidPackageName "__app" = "-app" ∧
    (toValidPackageName "..app").data.head? = some '-' ∧
    (toValidPackageName "__app").data.head? = some '-' := by
  refine ⟨fun s h => ?_, by decide, by decide, by decide, by decide⟩
  show (⟨toValidPackageNameList s.data⟩ : String) = ""
  unfold toValidPackageNameList
  rw [h]
  rfl

end CreateTsDash

